import Mathlib

set_option linter.unnecessarySeqFocus false

/-!
Shallow embedding of the release cache and version-resolution engine of
`relnotify` (src/src/notifier.rs, src/src/types.rs), together with proofs of
the specified properties.

Modelling conventions:
* Rust `String` fields are modelled as `List Char`.
* `chrono::DateTime<Utc>` timestamps are modelled as `Int` epoch milliseconds;
  `Option<DateTime<Utc>>` becomes `Option Int`, with the derived Rust ordering
  (`None` below every `Some`) embedded as `optLe`.
* The async facade is embedded as pure state passing: `fetch_all_releases`
  takes the current cache, the two `Utc::now()` readings it performs, and the
  outcome the external fetch collaborator would produce, and returns the
  result, the new cache and whether the collaborator was invoked.
-/

namespace Relnotify

/-- Embedding of `types.rs` `Release` (tag_name, name, body, prerelease,
draft, html_url, published_at). -/
structure Release where
  tag_name : List Char
  name : Option (List Char)
  body : Option (List Char)
  prerelease : Bool
  draft : Bool
  html_url : List Char
  published_at : Option Int
deriving DecidableEq

/-- The derived Rust `Ord` on `Option<DateTime<Utc>>` restricted to `≤`:
`None` compares below every `Some`. -/
def optLe : Option Int → Option Int → Bool
  | none, _ => true
  | some _, none => false
  | some a, some b => decide (a ≤ b)

/-- Embedding of Rust `Iterator::max_by_key` (accumulator pass): the running
maximum is replaced whenever the next key is `≥` the current one, so among
equal maximal keys the last element wins. -/
def maxByKeyAux (key : Release → Option Int) (acc : Release) :
    List Release → Release
  | [] => acc
  | y :: ys => maxByKeyAux key (if optLe (key acc) (key y) then y else acc) ys

/-- Embedding of Rust `Iterator::max_by_key` over a release list. -/
def maxByKey (key : Release → Option Int) : List Release → Option Release
  | [] => none
  | x :: xs => some (maxByKeyAux key x xs)

/-- Embedding of `ReleaseNotifier::get_latest_release`'s selection logic
(notifier.rs lines 81-91): drop drafts, drop prereleases unless included,
take the maximum by `published_at`. -/
def get_latest_release (include_prerelease : Bool) (releases : List Release) :
    Option Release :=
  maxByKey (fun r => r.published_at)
    ((releases.filter (fun r => !r.draft)).filter
      (fun r => include_prerelease || !r.prerelease))

/-- Embedding of `ReleaseNotifier::get_latest_prerelease`'s selection logic
(notifier.rs lines 97-106). -/
def get_latest_prerelease (releases : List Release) : Option Release :=
  maxByKey (fun r => r.published_at)
    (releases.filter (fun r => !r.draft && r.prerelease))

/-- Embedding of `version.strip_prefix('v').unwrap_or(version)` as used in
`find_release_by_version` (notifier.rs lines 244-255): remove one leading
lowercase 'v' when present, otherwise return the input unchanged. -/
def strip_v (s : List Char) : List Char :=
  match s with
  | c :: rest => if c = 'v' then rest else c :: rest
  | [] => []

/-- Embedding of `ReleaseNotifier::find_release_by_version`
(notifier.rs lines 244-255). -/
def find_release_by_version (version : List Char) (releases : List Release) :
    Option Release :=
  let normalized_version := strip_v version
  releases.find? (fun r => strip_v r.tag_name == normalized_version)

/-- Embedding of `ReleaseNotifier::is_version_older`
(notifier.rs lines 260-278). -/
def is_version_older (current_version : List Char) (latest : Release)
    (releases : List Release) : Bool :=
  match find_release_by_version current_version releases with
  | none => false
  | some current =>
    match current.published_at, latest.published_at with
    | some current_date, some latest_date => decide (current_date < latest_date)
    | _, _ => false

/-- Embedding of the in-memory `Cache` struct (notifier.rs lines 21-24). -/
structure Cache where
  releases : List Release
  last_fetch_time : Option Int
deriving DecidableEq

/-- Embedding of `ReleaseNotifierError::ApiError` — the only failure the
external fetch collaborator produces in this model. -/
structure ApiError where
  status : Nat
  message : List Char
deriving DecidableEq

/-- Result of one `fetch_all_releases` call: the value returned to the
caller, the cache left behind, and whether the external fetch collaborator
(`fetch_from_github`) was invoked during the call. -/
structure FetchOutcome where
  result : Except ApiError (List Release)
  cache : Cache
  fetch_invoked : Bool

/-- The cache-hit condition of `fetch_all_releases` (notifier.rs lines
159-169): TTL enabled, a recorded fetch time, age below the TTL, and a
non-empty cached list. -/
def cache_is_fresh (interval : Nat) (now : Int) (cache : Cache) : Bool :=
  decide (interval > 0) &&
    match cache.last_fetch_time with
    | some last_fetch =>
      decide (now - last_fetch < (interval : Int)) && !cache.releases.isEmpty
    | none => false

/-- Embedding of `ReleaseNotifier::fetch_all_releases` (notifier.rs lines
157-184). `now` is the `Utc::now()` reading used for the freshness check,
`now2` the one recorded when committing a successful fetch, and
`fetch_from_github` the outcome the collaborator would produce if invoked. -/
def fetch_all_releases (interval : Nat) (now now2 : Int)
    (fetch_from_github : Except ApiError (List Release)) (cache : Cache) :
    FetchOutcome :=
  if cache_is_fresh interval now cache then
    ⟨Except.ok cache.releases, cache, false⟩
  else
    match fetch_from_github with
    | Except.error e => ⟨Except.error e, cache, true⟩
    | Except.ok releases =>
      ⟨Except.ok releases, ⟨releases, some now2⟩, true⟩

/-- Embedding of the in-memory effect of `ReleaseNotifier::clear_cache`
(notifier.rs lines 145-154): the release list is cleared and the fetch time
dropped, unconditionally (the best-effort disk delete has no in-memory
effect). -/
def clear_cache (_cache : Cache) : Cache := ⟨[], none⟩

/-- Lock/fetch events observable in one `fetch_all_releases` call. -/
inductive LockEv
  | acq
  | rel
  | fetchCall
deriving DecidableEq

/-- The tail of the `fetch_all_releases` event trace once the cached copy is
not used: invoke the collaborator, then on success re-acquire the lock to
commit, and (when a cache file is configured) `save_cache_to_disk` acquires
the lock once more to copy the snapshot (notifier.rs lines 171-181, 231). -/
def fetch_and_commit_trace (fetch_ok has_cache_file : Bool) : List LockEv :=
  LockEv.fetchCall ::
    (if fetch_ok then
      [LockEv.acq, LockEv.rel] ++
        (if has_cache_file then [LockEv.acq, LockEv.rel] else [])
    else [])

/-- The sequence of lock acquisitions/releases and collaborator invocations
performed by `fetch_all_releases` (notifier.rs lines 157-184): with TTL
enabled, the lock is taken for the freshness check and dropped at the end of
that scope before any fetch; the fetch is then performed unlocked. -/
def fetch_all_releases_trace (interval : Nat) (now : Int) (cache : Cache)
    (fetch_ok has_cache_file : Bool) : List LockEv :=
  if interval > 0 then
    if cache_is_fresh interval now cache then [LockEv.acq, LockEv.rel]
    else LockEv.acq :: LockEv.rel ::
      fetch_and_commit_trace fetch_ok has_cache_file
  else fetch_and_commit_trace fetch_ok has_cache_file

/-- Checks that every collaborator invocation in a trace happens while the
lock depth is zero, i.e. never under the snapshot lock. -/
def fetches_outside_lock (depth : Nat) : List LockEv → Bool
  | [] => true
  | LockEv.acq :: tr => fetches_outside_lock (depth + 1) tr
  | LockEv.rel :: tr => fetches_outside_lock (depth - 1) tr
  | LockEv.fetchCall :: tr => (depth == 0) && fetches_outside_lock depth tr

/-- Embedding of `types.rs` `CacheData`, the unit of persistence written by
`save_cache_to_disk` and read by `load_cache_from_disk`: the release list and
a (non-optional) fetch timestamp. -/
structure CacheData where
  releases : List Release
  last_fetch_time : Int
deriving DecidableEq

/-- Modelled from the spec: the Persistent Snapshot Codec
("serializes/deserializes a cache snapshot to/from a byte stream for disk
storage"). The source delegates the concrete format to the external
`serde_json` library, which is not part of src/; the codec here is a concrete
byte-stream encoding faithful to the spec's contract. Natural numbers are
written as base-256 digit lists closed by the out-of-band marker 256. -/
def encodeNat (n : Nat) : List Nat :=
  Nat.digits 256 n ++ [256]

/-- Reads the digit list of an `encodeNat`-encoded number up to its closing
marker, returning the digits and the remaining stream. -/
def decodeNatAux : List Nat → Option (List Nat × List Nat)
  | [] => none
  | b :: bs =>
    if b = 256 then some ([], bs)
    else
      match decodeNatAux bs with
      | some (ds, rest) => some (b :: ds, rest)
      | none => none

/-- Decodes a natural number from the stream. -/
def decodeNat (s : List Nat) : Option (Nat × List Nat) :=
  match decodeNatAux s with
  | some (ds, rest) => some (Nat.ofDigits 256 ds, rest)
  | none => none

/-- Sign byte followed by the magnitude. -/
def encodeInt (i : Int) : List Nat :=
  if i < 0 then 0 :: encodeNat (-i).toNat else 1 :: encodeNat i.toNat

/-- Decodes an integer from the stream. -/
def decodeInt : List Nat → Option (Int × List Nat)
  | 0 :: rest =>
    match decodeNat rest with
    | some (n, r) => some (-(n : Int), r)
    | none => none
  | 1 :: rest =>
    match decodeNat rest with
    | some (n, r) => some ((n : Int), r)
    | none => none
  | _ => none

/-- Length-prefixed character data. -/
def encodeStr (s : List Char) : List Nat :=
  encodeNat s.length ++ s.map Char.toNat

/-- Decodes a length-prefixed string from the stream. -/
def decodeStr (s : List Nat) : Option (List Char × List Nat) :=
  match decodeNat s with
  | some (n, rest) =>
    if n ≤ rest.length then some ((rest.take n).map Char.ofNat, rest.drop n)
    else none
  | none => none

/-- One byte for a boolean. -/
def encodeBool (b : Bool) : List Nat :=
  [if b then 1 else 0]

/-- Decodes a boolean from the stream. -/
def decodeBool : List Nat → Option (Bool × List Nat)
  | 0 :: rest => some (false, rest)
  | 1 :: rest => some (true, rest)
  | _ => none

/-- Presence byte, then the payload when present. -/
def encodeOpt {α : Type} (enc : α → List Nat) : Option α → List Nat
  | none => [0]
  | some x => 1 :: enc x

/-- Decodes an optional payload from the stream. -/
def decodeOpt {α : Type} (dec : List Nat → Option (α × List Nat)) :
    List Nat → Option (Option α × List Nat)
  | 0 :: rest => some (none, rest)
  | 1 :: rest =>
    match dec rest with
    | some (x, r) => some (some x, r)
    | none => none
  | _ => none

/-- A release is the concatenation of its encoded fields, in declaration
order. -/
def encodeRelease (r : Release) : List Nat :=
  encodeStr r.tag_name ++ encodeOpt encodeStr r.name ++
    encodeOpt encodeStr r.body ++ encodeBool r.prerelease ++
    encodeBool r.draft ++ encodeStr r.html_url ++
    encodeOpt encodeInt r.published_at

/-- Decodes one release from the stream. -/
def decodeRelease (s : List Nat) : Option (Release × List Nat) :=
  match decodeStr s with
  | none => none
  | some (tag_name, s1) =>
    match decodeOpt decodeStr s1 with
    | none => none
    | some (name, s2) =>
      match decodeOpt decodeStr s2 with
      | none => none
      | some (body, s3) =>
        match decodeBool s3 with
        | none => none
        | some (prerelease, s4) =>
          match decodeBool s4 with
          | none => none
          | some (draft, s5) =>
            match decodeStr s5 with
            | none => none
            | some (html_url, s6) =>
              match decodeOpt decodeInt s6 with
              | none => none
              | some (published_at, s7) =>
                some (⟨tag_name, name, body, prerelease, draft, html_url,
                  published_at⟩, s7)

/-- Concatenation of element encodings. -/
def encodeList {α : Type} (enc : α → List Nat) : List α → List Nat
  | [] => []
  | x :: xs => enc x ++ encodeList enc xs

/-- Decodes exactly `count` elements from the stream. -/
def decodeCount {α : Type} (dec : List Nat → Option (α × List Nat)) :
    Nat → List Nat → Option (List α × List Nat)
  | 0, s => some ([], s)
  | count + 1, s =>
    match dec s with
    | some (x, r) =>
      match decodeCount dec count r with
      | some (xs, r2) => some (x :: xs, r2)
      | none => none
    | none => none

/-- Modelled from the spec: snapshot encoding — the release count, the
concatenated releases, then the fetch timestamp. -/
def encodeSnapshot (d : CacheData) : List Nat :=
  encodeNat d.releases.length ++ encodeList encodeRelease d.releases ++
    encodeInt d.last_fetch_time

/-- Modelled from the spec: snapshot decoding, inverse of `encodeSnapshot`;
returns the snapshot and the unconsumed remainder of the stream. -/
def decodeSnapshot (s : List Nat) : Option (CacheData × List Nat) :=
  match decodeNat s with
  | none => none
  | some (count, s1) =>
    match decodeCount decodeRelease count s1 with
    | none => none
    | some (releases, s2) =>
      match decodeInt s2 with
      | none => none
      | some (last_fetch_time, s3) => some (⟨releases, last_fetch_time⟩, s3)

theorem optLe_refl (a : Option Int) : optLe a a = true := by
  cases a <;> simp [optLe]

theorem optLe_trans {a b c : Option Int} (h1 : optLe a b = true)
    (h2 : optLe b c = true) : optLe a c = true := by
  cases a <;> cases b <;> cases c <;> simp_all [optLe] <;> omega

theorem optLe_total {a b : Option Int} (h : optLe a b = false) :
    optLe b a = true := by
  cases a <;> cases b <;> simp_all [optLe] <;> omega

theorem optLe_antisymm {a b : Option Int} (h1 : optLe a b = true)
    (h2 : optLe b a = true) : a = b := by
  cases a <;> cases b <;> simp_all [optLe] <;> omega

theorem maxByKeyAux_spec (key : Release → Option Int) (acc : Release)
    (ys : List Release) :
    optLe (key acc) (key (maxByKeyAux key acc ys)) = true ∧
      (∀ y ∈ ys, optLe (key y) (key (maxByKeyAux key acc ys)) = true) ∧
      ((maxByKeyAux key acc ys = acc ∧
          ∀ y ∈ ys, optLe (key acc) (key y) = false) ∨
        ∃ l1 l2, ys = l1 ++ maxByKeyAux key acc ys :: l2 ∧
          ∀ y ∈ l2, optLe (key (maxByKeyAux key acc ys)) (key y) = false) := by
  induction ys generalizing acc with
  | nil => exact ⟨optLe_refl _, by simp, Or.inl ⟨rfl, by simp⟩⟩
  | cons y ys ih =>
    by_cases h : optLe (key acc) (key y) = true
    · have hstep : maxByKeyAux key acc (y :: ys) = maxByKeyAux key y ys := by
        simp only [maxByKeyAux, h, if_true]
      obtain ⟨h1, h2, h3⟩ := ih y
      refine ⟨?_, ?_, ?_⟩
      · rw [hstep]; exact optLe_trans h h1
      · intro z hz
        rw [hstep]
        rcases List.mem_cons.mp hz with rfl | hz
        · exact h1
        · exact h2 z hz
      · rw [hstep]
        rcases h3 with ⟨heq, hall⟩ | ⟨l1, l2, hdec, hall⟩
        · refine Or.inr ⟨[], ys, ?_, ?_⟩
          · simp [heq]
          · intro z hz; rw [heq]; exact hall z hz
        · refine Or.inr ⟨y :: l1, l2, ?_, hall⟩
          rw [List.cons_append, ← hdec]
    · have hf : optLe (key acc) (key y) = false := Bool.eq_false_iff.mpr h
      have hstep : maxByKeyAux key acc (y :: ys) = maxByKeyAux key acc ys := by
        simp only [maxByKeyAux, hf, Bool.false_eq_true, if_false]
      obtain ⟨h1, h2, h3⟩ := ih acc
      have hyacc : optLe (key y) (key acc) = true := optLe_total hf
      refine ⟨?_, ?_, ?_⟩
      · rw [hstep]; exact h1
      · intro z hz
        rw [hstep]
        rcases List.mem_cons.mp hz with rfl | hz
        · exact optLe_trans hyacc h1
        · exact h2 z hz
      · rw [hstep]
        rcases h3 with ⟨heq, hall⟩ | ⟨l1, l2, hdec, hall⟩
        · refine Or.inl ⟨heq, ?_⟩
          intro z hz
          rcases List.mem_cons.mp hz with rfl | hz
          · exact hf
          · exact hall z hz
        · exact Or.inr ⟨y :: l1, l2, by rw [List.cons_append, ← hdec], hall⟩

theorem maxByKey_eq_none_iff (key : Release → Option Int) (l : List Release) :
    maxByKey key l = none ↔ l = [] := by
  cases l <;> simp only [maxByKey] <;> simp

theorem maxByKey_spec (key : Release → Option Int) {l : List Release}
    {r : Release} (h : maxByKey key l = some r) :
    (∀ y ∈ l, optLe (key y) (key r) = true) ∧
      ∃ l1 l2, l = l1 ++ r :: l2 ∧
        ∀ y ∈ l2, optLe (key r) (key y) = false := by
  cases l with
  | nil => simp [maxByKey] at h
  | cons x xs =>
    simp only [maxByKey, Option.some.injEq] at h
    subst h
    obtain ⟨h1, h2, h3⟩ := maxByKeyAux_spec key x xs
    refine ⟨?_, ?_⟩
    · intro z hz
      rcases List.mem_cons.mp hz with rfl | hz
      · exact h1
      · exact h2 z hz
    · rcases h3 with ⟨heq, hall⟩ | ⟨l1, l2, hdec, hall⟩
      · refine ⟨[], xs, ?_, ?_⟩
        · simp [heq]
        · intro z hz; rw [heq]; exact hall z hz
      · exact ⟨x :: l1, l2, by rw [List.cons_append, ← hdec], hall⟩

theorem maxByKey_mem (key : Release → Option Int) {l : List Release}
    {r : Release} (h : maxByKey key l = some r) : r ∈ l := by
  obtain ⟨-, l1, l2, hdec, -⟩ := maxByKey_spec key h
  rw [hdec]
  exact List.mem_append.mpr (Or.inr (List.mem_cons_self r l2))

theorem pairwise_published_at_inj {xs : List Release}
    (hdist : xs.Pairwise (fun a b => a.published_at ≠ b.published_at))
    {a b : Release} (ha : a ∈ xs) (hb : b ∈ xs)
    (hk : a.published_at = b.published_at) : a = b := by
  by_contra hne
  exact hdist.forall (fun _ _ h => Ne.symm h) ha hb hne hk

/-- The stable-release scenario from the spec's §8 example, used as concrete
input for witnesses. -/
def relV200 : Release :=
  ⟨['v', '2', '.', '0', '.', '0'], none, none, false, false, [], some 100⟩

def relBeta : Release :=
  ⟨['v', '2', '.', '1', '.', '0', '-', 'b', 'e', 't', 'a'], none, none,
    true, false, [], some 200⟩

def relV100 : Release :=
  ⟨['v', '1', '.', '0', '.', '0'], none, none, false, false, [], some 50⟩

def relDraft : Release :=
  ⟨['v', '3', '.', '0', '.', '0'], none, none, false, true, [], some 300⟩

def sampleList : List Release := [relV200, relBeta, relV100, relDraft]

/-- A stable release sharing `relV200`'s timestamp, for tie-break
witnesses. -/
def relTieLast : Release :=
  ⟨['v', '2', '.', '0', '.', '1'], none, none, false, false, [], some 100⟩

/-- C1: for every non-empty release list in which all publish timestamps are
distinct, `get_latest_release` with `include_prerelease = false` returns
exactly the non-draft, non-prerelease entry with the greatest `published_at`,
and returns none when no such entry exists. -/
theorem get_latest_release_stable_correct (xs : List Release)
    (hne : xs ≠ [])
    (hdist : xs.Pairwise (fun a b => a.published_at ≠ b.published_at)) :
    (get_latest_release false xs = none ↔
      ∀ r ∈ xs, r.draft = true ∨ r.prerelease = true) ∧
    ∀ r, get_latest_release false xs = some r ↔
      r ∈ xs ∧ r.draft = false ∧ r.prerelease = false ∧
        ∀ s ∈ xs, s.draft = false → s.prerelease = false →
          optLe s.published_at r.published_at = true := by
  have hmemc : ∀ r : Release,
      r ∈ (xs.filter (fun a => !a.draft)).filter
            (fun a => false || !a.prerelease) ↔
        r ∈ xs ∧ r.draft = false ∧ r.prerelease = false := by
    intro r
    simp only [List.mem_filter, Bool.false_or, Bool.not_eq_true']
    tauto
  constructor
  · rw [show get_latest_release false xs =
        maxByKey (fun r => r.published_at)
          ((xs.filter (fun a => !a.draft)).filter
            (fun a => false || !a.prerelease)) from rfl,
      maxByKey_eq_none_iff, List.eq_nil_iff_forall_not_mem]
    constructor
    · intro h r hr
      have hh := h r
      rw [hmemc r] at hh
      by_cases hd : r.draft = true
      · exact Or.inl hd
      · by_cases hp : r.prerelease = true
        · exact Or.inr hp
        · exact absurd
            ⟨hr, Bool.eq_false_iff.mpr hd, Bool.eq_false_iff.mpr hp⟩ hh
    · intro h r hc
      rw [hmemc r] at hc
      rcases h r hc.1 with hd | hp
      · rw [hc.2.1] at hd; exact Bool.noConfusion hd
      · rw [hc.2.2] at hp; exact Bool.noConfusion hp
  · intro r
    constructor
    · intro h
      obtain ⟨hmax, l1, l2, hdec, -⟩ :=
        maxByKey_spec (fun r => r.published_at)
          (show maxByKey (fun r => r.published_at)
              ((xs.filter (fun a => !a.draft)).filter
                (fun a => false || !a.prerelease)) = some r from h)
      have hrc : r ∈ (xs.filter (fun a => !a.draft)).filter
          (fun a => false || !a.prerelease) := by
        rw [hdec]
        exact List.mem_append.mpr (Or.inr (List.mem_cons_self r l2))
      rw [hmemc r] at hrc
      refine ⟨hrc.1, hrc.2.1, hrc.2.2, ?_⟩
      intro s hs hsd hsp
      exact hmax s ((hmemc s).mpr ⟨hs, hsd, hsp⟩)
    · rintro ⟨hmem, hd, hp, hmax⟩
      have hrc := (hmemc r).mpr ⟨hmem, hd, hp⟩
      rcases hres : maxByKey (fun r => r.published_at)
          ((xs.filter (fun a => !a.draft)).filter
            (fun a => false || !a.prerelease)) with _ | m
      · rw [maxByKey_eq_none_iff] at hres
        rw [hres] at hrc
        cases hrc
      · obtain ⟨hmax2, -⟩ := maxByKey_spec (fun r => r.published_at) hres
        have hm := maxByKey_mem (fun r => r.published_at) hres
        have hmx := (hmemc m).mp hm
        have h1 : optLe m.published_at r.published_at = true :=
          hmax m hmx.1 hmx.2.1 hmx.2.2
        have h2 : optLe r.published_at m.published_at = true := hmax2 r hrc
        have : m = r :=
          pairwise_published_at_inj hdist hmx.1 hmem (optLe_antisymm h1 h2)
        rw [← this]
        exact hres

/-- C1 witness: on the spec's §8 scenario the stable selection picks the
`v2.0.0` release. -/
theorem get_latest_release_stable_correct_witness :
    get_latest_release false sampleList = some relV200 :=
  ((get_latest_release_stable_correct sampleList (by decide)
      (by decide)).2 relV200).mpr (by decide)

/-- C2: `is_version_older` returns false when the normalized current version
matches no release; when a matching release is found, it returns true exactly
when both its timestamp and the latest's timestamp are present and the found
release's timestamp is strictly earlier; any missing timestamp yields
false. -/
theorem is_version_older_correct (v : List Char) (latest : Release)
    (xs : List Release) :
    ((∀ r ∈ xs, strip_v r.tag_name ≠ strip_v v) →
      is_version_older v latest xs = false) ∧
    ∀ c, find_release_by_version v xs = some c →
      (is_version_older v latest xs = true ↔
        ∃ current_date latest_date,
          c.published_at = some current_date ∧
            latest.published_at = some latest_date ∧
            current_date < latest_date) := by
  constructor
  · intro hnone
    have hfind : find_release_by_version v xs = none := by
      apply List.find?_eq_none.mpr
      intro r hr
      simp only [beq_iff_eq]
      exact hnone r hr
    simp only [is_version_older, hfind]
  · intro c hc
    simp only [is_version_older, hc]
    rcases hcp : c.published_at with _ | cd
    · simp
    · rcases hlp : latest.published_at with _ | ld
      · simp
      · simp [decide_eq_true_eq]

/-- C2 witness: in the spec's §8 scenario, `v1.0.0` is found and is older
than the latest stable release `v2.0.0`. -/
theorem is_version_older_correct_witness :
    is_version_older ['v', '1', '.', '0', '.', '0'] relV200 sampleList =
      true :=
  ((is_version_older_correct ['v', '1', '.', '0', '.', '0'] relV200
      sampleList).2 relV100 (by decide)).mpr ⟨50, 100, rfl, rfl, by decide⟩

/-- C5 counterexample: normalization does not strip an uppercase 'V', so a
version string and a release tag differing only by one leading 'V' are not
found equal by `find_release_by_version`. -/
theorem strip_v_uppercase_counterexample :
    strip_v ['V', '1', '.', '0'] = ['V', '1', '.', '0'] ∧
      find_release_by_version ['V', '1', '.', '0']
        [⟨['1', '.', '0'], none, none, false, false, [], none⟩] = none := by
  decide

/-- C5 (amended): normalization strips at most one leading lowercase 'v' if
present and otherwise returns the tag unchanged (an uppercase 'V' is never
stripped); a version string and a release tag whose normalized forms coincide
— in particular a pair differing only by one leading lowercase 'v', when the
bare form does not itself start with 'v' — are found equal by
`find_release_by_version`. -/
theorem strip_v_lowercase_only (t u : List Char) (r : Release) :
    strip_v ('v' :: t) = t ∧
      (t.head? ≠ some 'v' → strip_v t = t) ∧
      (strip_v u = strip_v r.tag_name →
        find_release_by_version u [r] = some r) ∧
      (r.tag_name = 'v' :: u → u.head? ≠ some 'v' →
        find_release_by_version u [r] = some r) ∧
      (u = 'v' :: r.tag_name → r.tag_name.head? ≠ some 'v' →
        find_release_by_version u [r] = some r) := by
  have hcons : strip_v ('v' :: t) = t := by simp [strip_v]
  have hkeep : ∀ s : List Char, s.head? ≠ some 'v' → strip_v s = s := by
    intro s hs
    match s with
    | [] => rfl
    | c :: s' =>
      have hc : c ≠ 'v' := by
        intro hcv
        exact hs (by rw [hcv]; rfl)
      simp [strip_v, hc]
  have hfind : ∀ w : List Char, strip_v w = strip_v r.tag_name →
      find_release_by_version w [r] = some r := by
    intro w hw
    simp [find_release_by_version, List.find?, hw]
  refine ⟨hcons, hkeep t, hfind u, ?_, ?_⟩
  · intro htag hu
    apply hfind
    rw [htag]
    have h1 : strip_v ('v' :: u) = u := by simp [strip_v]
    rw [h1, hkeep u hu]
  · intro hu htag
    apply hfind
    rw [hu]
    have h1 : strip_v ('v' :: r.tag_name) = r.tag_name := by simp [strip_v]
    rw [h1, hkeep r.tag_name htag]

/-- C5 witness: tag `v2.0.0` is found from the bare version string
`2.0.0`. -/
theorem strip_v_lowercase_only_witness :
    find_release_by_version ['2', '.', '0', '.', '0'] [relV200] =
      some relV200 :=
  (strip_v_lowercase_only ['2', '.', '0', '.', '0'] ['2', '.', '0', '.', '0']
      relV200).2.2.2.1 (by decide) (by decide)

/-- C6: no selection operation ever returns a draft release: draft filtering
is applied before any other selection in both `get_latest_release` (either
flag value) and `get_latest_prerelease`. -/
theorem selectors_never_return_draft (xs : List Release)
    (include_prerelease : Bool) (r : Release) :
    (get_latest_release include_prerelease xs = some r → r.draft = false) ∧
      (get_latest_prerelease xs = some r → r.draft = false) := by
  constructor
  · intro h
    have hm := maxByKey_mem (fun a => a.published_at)
      (show maxByKey (fun a => a.published_at)
          ((xs.filter (fun a => !a.draft)).filter
            (fun a => include_prerelease || !a.prerelease)) = some r from h)
    have := (List.mem_filter.mp (List.mem_filter.mp hm).1).2
    simpa using this
  · intro h
    have hm := maxByKey_mem (fun a => a.published_at)
      (show maxByKey (fun a => a.published_at)
          (xs.filter (fun a => !a.draft && a.prerelease)) = some r from h)
    have := (List.mem_filter.mp hm).2
    simp only [Bool.and_eq_true, Bool.not_eq_true'] at this
    exact this.1

/-- C6 witness: in the spec's §8 scenario neither selector returns the draft
`v3.0.0` entry even though it has the most recent timestamp. -/
theorem selectors_never_return_draft_witness :
    relV200.draft = false ∧ relBeta.draft = false :=
  ⟨(selectors_never_return_draft sampleList false relV200).1 (by decide),
    (selectors_never_return_draft sampleList true relBeta).2 (by decide)⟩

/-- C9: the selection ordering places an absent `published_at` below every
present one, and each latest-selection returns the candidate occurring last
among those sharing the maximal `published_at`: the returned release is a
candidate, every candidate's key is `≤` its key, and every candidate strictly
after it has a strictly smaller key. -/
theorem latest_selection_order_and_tiebreak (xs : List Release)
    (include_prerelease : Bool) (r : Release) (ts : Int) :
    optLe none (some ts) = true ∧ optLe (some ts) none = false ∧
      (get_latest_release include_prerelease xs = some r →
        (∀ y ∈ (xs.filter (fun a => !a.draft)).filter
            (fun a => include_prerelease || !a.prerelease),
          optLe y.published_at r.published_at = true) ∧
        ∃ l1 l2, (xs.filter (fun a => !a.draft)).filter
            (fun a => include_prerelease || !a.prerelease) = l1 ++ r :: l2 ∧
          ∀ y ∈ l2, optLe r.published_at y.published_at = false) ∧
      (get_latest_prerelease xs = some r →
        (∀ y ∈ xs.filter (fun a => !a.draft && a.prerelease),
          optLe y.published_at r.published_at = true) ∧
        ∃ l1 l2, xs.filter (fun a => !a.draft && a.prerelease) =
            l1 ++ r :: l2 ∧
          ∀ y ∈ l2, optLe r.published_at y.published_at = false) := by
  refine ⟨rfl, rfl, ?_, ?_⟩
  · intro h
    exact maxByKey_spec (fun a => a.published_at)
      (show maxByKey (fun a => a.published_at)
          ((xs.filter (fun a => !a.draft)).filter
            (fun a => include_prerelease || !a.prerelease)) = some r from h)
  · intro h
    exact maxByKey_spec (fun a => a.published_at)
      (show maxByKey (fun a => a.published_at)
          (xs.filter (fun a => !a.draft && a.prerelease)) = some r from h)

/-- C9 witness: instantiated on a list whose two stable candidates share the
maximal timestamp; the later one is selected. -/
theorem latest_selection_order_and_tiebreak_witness :
    optLe none (some 7) = true ∧ optLe (some 7) none = false ∧
      (∀ y ∈ ([relV200, relV100, relTieLast].filter
          (fun a => !a.draft)).filter (fun a => false || !a.prerelease),
        optLe y.published_at relTieLast.published_at = true) := by
  obtain ⟨h1, h2, h3, -⟩ :=
    latest_selection_order_and_tiebreak [relV200, relV100, relTieLast] false
      relTieLast 7
  exact ⟨h1, h2, (h3 (by decide)).1⟩

/-- C3 counterexample: when the successful first fetch returns an empty
release list, the cache-hit condition (which requires a non-empty cached
list) never holds, so a second call within the TTL window invokes the
collaborator again — two invocations, not one. -/
theorem fetch_twice_within_ttl_counterexample :
    (fetch_all_releases 1000 0 0 (Except.ok []) ⟨[], none⟩).fetch_invoked =
        true ∧
      (fetch_all_releases 1000 0 0 (Except.ok []) ⟨[], none⟩).cache =
        ⟨[], some 0⟩ ∧
      (fetch_all_releases 1000 5 5 (Except.ok [])
          (fetch_all_releases 1000 0 0 (Except.ok []) ⟨[], none⟩).cache
        ).fetch_invoked = true := by
  constructor
  · rfl
  · constructor <;> rfl

/-- C3 (amended): with TTL > 0, after a first call that invoked the
collaborator and got a successful, non-empty release list, a second call
within the TTL window does not invoke it again (one invocation in total) and
returns the cached list with the cache unchanged; when the fetched list is
empty the cache is never consulted. With TTL == 0 the collaborator is invoked
on every call, and the snapshot is still replaced on each successful
fetch. -/
theorem fetch_all_releases_caching (interval : Nat) (now1 now2 now3 now4 : Int)
    (rs : List Release) (st0 : Cache)
    (fr fr2 : Except ApiError (List Release)) :
    (0 < interval → rs ≠ [] →
      (fetch_all_releases interval now1 now2 (Except.ok rs) st0).fetch_invoked
        = true →
      now3 - now2 < (interval : Int) →
      (fetch_all_releases interval now3 now4 fr2
          (fetch_all_releases interval now1 now2 (Except.ok rs) st0).cache) =
        ⟨Except.ok rs,
          (fetch_all_releases interval now1 now2 (Except.ok rs) st0).cache,
          false⟩) ∧
    (interval = 0 →
      (fetch_all_releases interval now1 now2 fr st0).fetch_invoked = true ∧
      ∀ rs', fr = Except.ok rs' →
        (fetch_all_releases interval now1 now2 fr st0).cache =
          ⟨rs', some now2⟩) := by
  constructor
  · intro hpos hrs hinv hwin
    have hcommit :
        (fetch_all_releases interval now1 now2 (Except.ok rs) st0).cache =
          ⟨rs, some now2⟩ := by
      by_cases hfresh : cache_is_fresh interval now1 st0 = true
      · exfalso
        simp only [fetch_all_releases, hfresh, if_true] at hinv
        exact Bool.noConfusion hinv
      · simp only [fetch_all_releases, hfresh]
        simp
    rw [hcommit]
    have hfresh2 : cache_is_fresh interval now3 (⟨rs, some now2⟩ : Cache) =
        true := by
      simp only [cache_is_fresh]
      have h1 : decide (interval > 0) = true := by
        simpa using hpos
      have h2 : decide (now3 - now2 < (interval : Int)) = true := by
        simpa using hwin
      have h3 : (Cache.mk rs (some now2)).releases.isEmpty = false := by
        cases rs with
        | nil => exact absurd rfl hrs
        | cons a l => rfl
      simp [h1, h2, h3]
    simp only [fetch_all_releases, hfresh2, if_true]
  · intro h0
    subst h0
    have hfresh : ∀ c : Cache, cache_is_fresh 0 now1 c = false := by
      intro c
      simp [cache_is_fresh]
    cases fr with
    | error e =>
      refine ⟨?_, ?_⟩
      · simp only [fetch_all_releases, hfresh st0]
        rfl
      · intro rs' h
        exact Except.noConfusion h
    | ok rs0 =>
      refine ⟨?_, ?_⟩
      · simp only [fetch_all_releases, hfresh st0]
        rfl
      · intro rs' h
        have hrs0 : rs0 = rs' := Except.ok.inj h
        subst hrs0
        simp only [fetch_all_releases, hfresh st0]
        rfl

/-- C3 witness: a cold cache, a successful non-empty fetch at time 0, and a
second call at time 5 with TTL 1000 serve the cached list without a second
invocation; with TTL 0, each call invokes the collaborator. -/
theorem fetch_all_releases_caching_witness :
    (fetch_all_releases 1000 5 6 (Except.error ⟨500, []⟩)
        (fetch_all_releases 1000 0 0 (Except.ok [relV200]) ⟨[], none⟩).cache) =
      ⟨Except.ok [relV200],
        (fetch_all_releases 1000 0 0 (Except.ok [relV200]) ⟨[], none⟩).cache,
        false⟩ ∧
      (fetch_all_releases 0 0 9 (Except.ok [relV200]) ⟨[], none⟩).fetch_invoked
        = true ∧
      (fetch_all_releases 0 0 9 (Except.ok [relV200]) ⟨[], none⟩).cache =
        ⟨[relV200], some 9⟩ := by
  obtain ⟨h1, -⟩ :=
    fetch_all_releases_caching 1000 0 0 5 6 [relV200] ⟨[], none⟩
      (Except.ok [relV200]) (Except.error ⟨500, []⟩)
  obtain ⟨-, h2⟩ :=
    fetch_all_releases_caching 0 0 9 0 0 [relV200] ⟨[], none⟩
      (Except.ok [relV200]) (Except.ok [relV200])
  exact ⟨h1 (by decide) (by decide) (by decide) (by decide),
    h2 rfl |>.1, h2 rfl |>.2 [relV200] rfl⟩

/-- C4: when the external fetch fails, `fetch_all_releases` leaves the cache
exactly as it was, and whenever the collaborator was actually invoked the
error is propagated to the caller. -/
theorem fetch_error_preserves_cache (interval : Nat) (now now2 : Int)
    (e : ApiError) (cache : Cache) :
    (fetch_all_releases interval now now2 (Except.error e) cache).cache =
        cache ∧
      ((fetch_all_releases interval now now2 (Except.error e) cache
          ).fetch_invoked = true →
        (fetch_all_releases interval now now2 (Except.error e) cache).result =
          Except.error e) := by
  by_cases hfresh : cache_is_fresh interval now cache = true
  · constructor
    · simp only [fetch_all_releases, hfresh, if_true]
    · intro hinv
      simp only [fetch_all_releases, hfresh, if_true] at hinv
      exact Bool.noConfusion hinv
  · constructor
    · simp only [fetch_all_releases, hfresh]
      simp
    · intro _
      simp only [fetch_all_releases, hfresh]
      simp

/-- C4 witness: a failing fetch against a populated cache leaves it intact
and surfaces the error. -/
theorem fetch_error_preserves_cache_witness :
    (fetch_all_releases 1000 5000 5000 (Except.error ⟨502, []⟩)
        ⟨[relV200], some 0⟩).cache = ⟨[relV200], some 0⟩ ∧
      (fetch_all_releases 1000 5000 5000 (Except.error ⟨502, []⟩)
          ⟨[relV200], some 0⟩).result = Except.error ⟨502, []⟩ :=
  ⟨(fetch_error_preserves_cache 1000 5000 5000 ⟨502, []⟩
      ⟨[relV200], some 0⟩).1,
    (fetch_error_preserves_cache 1000 5000 5000 ⟨502, []⟩
      ⟨[relV200], some 0⟩).2 (by decide)⟩

/-- C7: `clear_cache` resets the snapshot to empty with no timestamp, is
idempotent, and after it every `fetch_all_releases` call invokes the
collaborator again, whatever the TTL and however fresh the previous cache
was. -/
theorem clear_cache_resets (cache : Cache) (interval : Nat) (now now2 : Int)
    (fr : Except ApiError (List Release)) :
    clear_cache cache = ⟨[], none⟩ ∧
      clear_cache (clear_cache cache) = clear_cache cache ∧
      (fetch_all_releases interval now now2 fr (clear_cache cache)
        ).fetch_invoked = true := by
  refine ⟨rfl, rfl, ?_⟩
  have hfresh : cache_is_fresh interval now (clear_cache cache) = false := by
    simp [cache_is_fresh, clear_cache]
  cases fr with
  | error e => simp only [fetch_all_releases, hfresh]; simp
  | ok rs => simp only [fetch_all_releases, hfresh]; simp

/-- C10: in every `fetch_all_releases` call, the collaborator invocation in
the event trace happens at lock depth zero — the snapshot lock taken for the
freshness check is released before the fetch — and on a successful fetch the
invocation is immediately followed by re-acquiring the lock to commit the
result. -/
theorem fetch_never_under_lock (interval : Nat) (now : Int) (cache : Cache)
    (fetch_ok has_cache_file : Bool) :
    fetches_outside_lock 0
        (fetch_all_releases_trace interval now cache fetch_ok has_cache_file) =
      true ∧
      (fetch_ok = true →
        LockEv.fetchCall ∈
          fetch_all_releases_trace interval now cache fetch_ok
            has_cache_file →
        ∃ l1 l2,
          fetch_all_releases_trace interval now cache fetch_ok
              has_cache_file =
            l1 ++ LockEv.fetchCall :: LockEv.acq :: l2) := by
  simp only [fetch_all_releases_trace, fetch_and_commit_trace]
  by_cases hpos : interval > 0
  · by_cases hfresh : cache_is_fresh interval now cache = true
    · simp only [hpos, hfresh, if_true]
      refine ⟨rfl, ?_⟩
      intro _ hmem
      exact absurd hmem (by decide)
    · simp only [hpos, hfresh, if_true, Bool.false_eq_true, if_false]
      cases fetch_ok with
      | false =>
        refine ⟨rfl, ?_⟩
        intro hok
        exact Bool.noConfusion hok
      | true =>
        cases has_cache_file with
        | false =>
          exact ⟨rfl, fun _ _ =>
            ⟨[LockEv.acq, LockEv.rel], [LockEv.rel], rfl⟩⟩
        | true =>
          exact ⟨rfl, fun _ _ =>
            ⟨[LockEv.acq, LockEv.rel],
              [LockEv.rel, LockEv.acq, LockEv.rel], rfl⟩⟩
  · simp only [hpos, if_false]
    cases fetch_ok with
    | false =>
      refine ⟨rfl, ?_⟩
      intro hok
      exact Bool.noConfusion hok
    | true =>
      cases has_cache_file with
      | false => exact ⟨rfl, fun _ _ => ⟨[], [LockEv.rel], rfl⟩⟩
      | true =>
        exact ⟨rfl, fun _ _ =>
          ⟨[], [LockEv.rel, LockEv.acq, LockEv.rel], rfl⟩⟩

/-- C10 witness: on a cold cache with TTL enabled and a successful fetch, the
trace keeps the fetch outside the lock and re-acquires the lock right after
it. -/
theorem fetch_never_under_lock_witness :
    fetches_outside_lock 0
        (fetch_all_releases_trace 1000 0 ⟨[], none⟩ true true) = true ∧
      ∃ l1 l2, fetch_all_releases_trace 1000 0 ⟨[], none⟩ true true =
        l1 ++ LockEv.fetchCall :: LockEv.acq :: l2 :=
  ⟨(fetch_never_under_lock 1000 0 ⟨[], none⟩ true true).1,
    (fetch_never_under_lock 1000 0 ⟨[], none⟩ true true).2 rfl (by decide)⟩

theorem decodeNatAux_digits (ds rest : List Nat) (h : ∀ d ∈ ds, d < 256) :
    decodeNatAux (ds ++ 256 :: rest) = some (ds, rest) := by
  induction ds with
  | nil => simp [decodeNatAux]
  | cons d ds ih =>
    have hd : d < 256 := h d (List.mem_cons_self d ds)
    have hne : ¬d = 256 := by omega
    have ih2 := ih (fun x hx => h x (List.mem_cons_of_mem d hx))
    simp [decodeNatAux, hne, ih2]

theorem decodeNat_encodeNat (n : Nat) (rest : List Nat) :
    decodeNat (encodeNat n ++ rest) = some (n, rest) := by
  have hstream : encodeNat n ++ rest = Nat.digits 256 n ++ 256 :: rest := by
    simp [encodeNat]
  rw [hstream]
  have h := decodeNatAux_digits (Nat.digits 256 n) rest
    (fun d hd => Nat.digits_lt_base (by norm_num) hd)
  simp [decodeNat, h, Nat.ofDigits_digits]

theorem decodeInt_encodeInt (i : Int) (rest : List Nat) :
    decodeInt (encodeInt i ++ rest) = some (i, rest) := by
  by_cases hneg : i < 0
  · have henc : encodeInt i = 0 :: encodeNat (-i).toNat := by
      simp [encodeInt, hneg]
    rw [henc, List.cons_append]
    simp only [decodeInt, decodeNat_encodeNat]
    have hval : (((-i).toNat : Int)) = -i := Int.toNat_of_nonneg (by omega)
    rw [hval, neg_neg]
  · have henc : encodeInt i = 1 :: encodeNat i.toNat := by
      simp [encodeInt, hneg]
    rw [henc, List.cons_append]
    simp only [decodeInt, decodeNat_encodeNat]
    have hval : ((i.toNat : Int)) = i := Int.toNat_of_nonneg (by omega)
    rw [hval]

theorem decodeStr_encodeStr (s : List Char) (rest : List Nat) :
    decodeStr (encodeStr s ++ rest) = some (s, rest) := by
  simp only [encodeStr, List.append_assoc]
  simp only [decodeStr, decodeNat_encodeNat]
  have hlen : s.length ≤ (s.map Char.toNat ++ rest).length := by
    simp
  rw [if_pos hlen]
  have hts : (s.map Char.toNat ++ rest).take s.length = s.map Char.toNat := by
    have h := List.take_left (s.map Char.toNat) rest
    rwa [List.length_map] at h
  have hds : (s.map Char.toNat ++ rest).drop s.length = rest := by
    have h := List.drop_left (s.map Char.toNat) rest
    rwa [List.length_map] at h
  rw [hts, hds, List.map_map]
  have hid : (Char.ofNat ∘ Char.toNat) = id :=
    funext fun c => Char.ofNat_toNat c
  rw [hid, List.map_id]

theorem decodeBool_encodeBool (b : Bool) (rest : List Nat) :
    decodeBool (encodeBool b ++ rest) = some (b, rest) := by
  cases b <;> rfl

theorem decodeOpt_encodeOpt {α : Type} (enc : α → List Nat)
    (dec : List Nat → Option (α × List Nat))
    (hrt : ∀ x rest, dec (enc x ++ rest) = some (x, rest))
    (o : Option α) (rest : List Nat) :
    decodeOpt dec (encodeOpt enc o ++ rest) = some (o, rest) := by
  cases o with
  | none => rfl
  | some x => simp [encodeOpt, decodeOpt, hrt]

theorem decodeRelease_encodeRelease (r : Release) (rest : List Nat) :
    decodeRelease (encodeRelease r ++ rest) = some (r, rest) := by
  obtain ⟨tag, nm, bd, pre, dr, url, pub⟩ := r
  simp only [encodeRelease, List.append_assoc]
  simp only [decodeRelease, decodeStr_encodeStr, decodeBool_encodeBool,
    decodeOpt_encodeOpt encodeStr decodeStr decodeStr_encodeStr,
    decodeOpt_encodeOpt encodeInt decodeInt decodeInt_encodeInt]

theorem decodeCount_encodeList {α : Type} (enc : α → List Nat)
    (dec : List Nat → Option (α × List Nat))
    (hrt : ∀ x rest, dec (enc x ++ rest) = some (x, rest))
    (xs : List α) (rest : List Nat) :
    decodeCount dec xs.length (encodeList enc xs ++ rest) =
      some (xs, rest) := by
  induction xs with
  | nil => rfl
  | cons x xs ih =>
    simp only [List.length_cons, encodeList, List.append_assoc, decodeCount,
      hrt, ih]

theorem decodeSnapshot_encodeSnapshot (d : CacheData) (rest : List Nat) :
    decodeSnapshot (encodeSnapshot d ++ rest) = some (d, rest) := by
  obtain ⟨rs, t⟩ := d
  simp only [encodeSnapshot, List.append_assoc]
  simp only [decodeSnapshot, decodeNat_encodeNat,
    decodeCount_encodeList encodeRelease decodeRelease
      decodeRelease_encodeRelease,
    decodeInt_encodeInt]

/-- C8: encoding any cache snapshot — the release list (order included) and
the fetch timestamp — with the persistence codec and decoding the result
yields an equal snapshot and consumes the whole stream; this holds for the
empty snapshot as well. -/
theorem snapshot_roundtrip (d : CacheData) :
    decodeSnapshot (encodeSnapshot d) = some (d, []) := by
  have h := decodeSnapshot_encodeSnapshot d []
  rwa [List.append_nil] at h

end Relnotify
